import Mathlib

/-!
Verification of the Wordle solver core (`src/main.py`).

The Python source is shallowly embedded below.  Strings are modelled as
`List Char`, Python dicts with `.get(k, 0)`-style access are modelled by
their lookup functions, fallible code (code that can raise) returns
`Option`, and real-valued computations (`math.log2`) live in `ℝ`.
-/

namespace Wordle

/-- Embeds `word_len = 5` from the source. -/
def word_len : Nat := 5

/-- Embeds `characters = ("b", "y", "g")` from the source. -/
def characters : List Char := ['b', 'y', 'g']

/-- Embeds the dict `char_state = {c: i for i, c in enumerate(characters)}`,
modelled by its lookup function (`None` for a missing key). -/
def char_state (c : Char) : Option Nat :=
  if c = 'b' then some 0 else if c = 'y' then some 1 else if c = 'g' then some 2 else none

/-- Embeds `completion = 3 ** word_len - 1`. -/
def completion : Nat := 3 ^ word_len - 1

/-- A Python string, as a list of characters. -/
abbrev Word := List Char

/-- The update `pool[s] = pool.get(s, 0) + 1` on the dict `pool`, which is
modelled by its `.get(·, 0)` lookup function. -/
def poolAdd (pool : Char → Nat) (s : Char) : Char → Nat :=
  fun c => if c = s then pool s + 1 else pool c

/-- First loop of `pattern_code`: walks `zip(guess, secret)` in lockstep with
the `states` array (index `idx` advances by one per iteration, so position
`idx` of `states` is the head of the remaining list).  On `g_char == s_char`
it writes `states[idx] = 2` (an out-of-range write, which Python would fault
on, yields `none`); otherwise it counts the secret letter into `pool`. -/
def pass1 : List (Char × Char) → List Nat → (Char → Nat) →
    Option (List Nat × (Char → Nat))
  | [], states, pool => some (states, pool)
  | _ :: _, [], _ => none
  | (g, s) :: rest, st :: sts, pool =>
    if g = s then
      (pass1 rest sts pool).map (fun r => (2 :: r.1, r.2))
    else
      (pass1 rest sts (poolAdd pool s)).map (fun r => (st :: r.1, r.2))

/-- Second loop of `pattern_code`, again walking `guess` in lockstep with
`states`: a position already marked (`states[idx] != 0`) is skipped; otherwise
`remaining = pool.get(g_char, 0)` decides between marking `1` (present,
decrementing the pool entry — `del` for a count of 1, assignment otherwise)
and leaving the mark `0` (absent).  Reading `states[idx]` past the end of the
array is Python's `IndexError`, hence `none`. -/
def pass2 : List Char → List Nat → (Char → Nat) → Option (List Nat)
  | [], states, _ => some states
  | _ :: _, [], _ => none
  | g :: gs, st :: sts, pool =>
    if st ≠ 0 then
      (pass2 gs sts pool).map (fun r => st :: r)
    else
      let remaining := pool g
      if remaining ≠ 0 then
        let pool' := if remaining = 1
          then (fun c => if c = g then 0 else pool c)
          else (fun c => if c = g then remaining - 1 else pool c)
        (pass2 gs sts pool').map (fun r => 1 :: r)
      else
        (pass2 gs sts pool).map (fun r => st :: r)

/-- The final packing loop of `pattern_code`:
`value = 0; for state in states: value = value * 3 + state`. -/
def pack (states : List Nat) : Nat :=
  states.foldl (fun v st => v * 3 + st) 0

/-- Embeds `pattern_code(secret, guess)` from the source.  `states` starts as
`[0] * word_len`; the two loops are `pass1` (over `zip(guess, secret)`) and
`pass2` (over `guess`); a `none` result models the `IndexError` the Python
code raises when `guess` is longer than `word_len`. -/
def pattern_code (secret guess : Word) : Option Nat :=
  match pass1 (guess.zip secret) (List.replicate word_len 0) (fun _ => 0) with
  | none => none
  | some (states, pool) =>
    match pass2 guess states pool with
    | none => none
    | some states2 => some (pack states2)

/-- Total view of `pattern_code`, defaulting the (never-hit, for guesses of
length at most `word_len`) failure case to `0`; the solver methods below are
only ever reasoned about under the Word length invariant, where this equals
the Python call exactly (`pattern_code_eq_someD`). -/
def pattern_codeD (secret guess : Word) : Nat :=
  (pattern_code secret guess).getD 0

/-- The countdown loop of `pattern_to_string`: position `word_len - 1` gets
symbol `characters[code % 3]`, then the code is divided by 3 and the position
moves left.  `pattern_digits n code` is the block of the last `n` positions. -/
def pattern_digits : Nat → Nat → List Char
  | 0, _ => []
  | n + 1, code => pattern_digits n (code / 3) ++ [characters.getD (code % 3) 'b']

/-- Embeds `pattern_to_string(code)` from the source. -/
def pattern_to_string (code : Nat) : Word :=
  pattern_digits word_len code

/-- The accumulation loop of `string_to_pattern`:
`value = value * 3 + char_state[char]`, failing on a character outside the
`bgy` alphabet. -/
def string_to_pattern_loop : List Char → Nat → Option Nat
  | [], value => some value
  | c :: cs, value =>
    match char_state c with
    | none => none
    | some st => string_to_pattern_loop cs (value * 3 + st)

/-- Embeds `string_to_pattern(pattern)` from the source; `none` models the
`ValueError`s for a wrong length or a symbol outside `g`/`y`/`b`. -/
def string_to_pattern (pattern : Word) : Option Nat :=
  if pattern.length ≠ word_len then none
  else string_to_pattern_loop (pattern.map Char.toLower) 0

/-! ### Specification-side encoder (the words of the claim C1)

`encode_spec` follows the spec sentence for the Feedback Encoder: mark a
position `exact` iff `guess[i] == hidden[i]`; build a multiset of the hidden
word's letters at non-exact positions; scan guess positions left to right,
marking `present` iff the letter still has remaining count > 0 in the
multiset (decrementing it), else `absent`; pack most-significant digit
first. -/

/-- Per position `i`, whether `guess[i] == hidden[i]` (the `exact` marks). -/
def exact_mask (hidden guess : Word) : List Bool :=
  (guess.zip hidden).map (fun p => decide (p.1 = p.2))

/-- The multiset of the hidden word's letters at positions not marked
`exact`. -/
def unmatched_multiset (hidden guess : Word) : Multiset Char :=
  ↑(((hidden.zip guess).filter (fun p => decide (p.1 ≠ p.2))).map Prod.fst)

/-- Left-to-right marking pass of the specification: an `exact` position
keeps state `2`; otherwise the position is `present` (`1`) iff the guessed
letter has remaining count > 0 in the multiset, which is then decremented,
and `absent` (`0`) otherwise. -/
def spec_states : List (Char × Bool) → Multiset Char → List Nat
  | [], _ => []
  | (_, true) :: rest, m => 2 :: spec_states rest m
  | (g, false) :: rest, m =>
    if 0 < m.count g then 1 :: spec_states rest (m.erase g)
    else 0 :: spec_states rest m

/-- Base-3 packing with the most-significant digit first:
`pack_msb [d0, d1, ..., dn] = d0 * 3 ^ n + ... + dn`. -/
def pack_msb : List Nat → Nat
  | [] => 0
  | st :: rest => st * 3 ^ rest.length + pack_msb rest

/-- The feedback code as described by the specification. -/
def encode_spec (hidden guess : Word) : Nat :=
  pack_msb (spec_states (guess.zip (exact_mask hidden guess))
    (unmatched_multiset hidden guess))

/-- How many positions carrying the guess letter `ch` are marked `present`
(state `1`) in a states list. -/
def present_count (guess : Word) (states : List Nat) (ch : Char) : Nat :=
  ((guess.zip states).filter (fun p => p.1 == ch && p.2 == 1)).length

/-! ### The solver (`class WordleSolver`) -/

/-- Embeds the `Counter` built over `set(word)` for each word in
`_rank_words_by_letter_coverage` / `_top_candidate_words`: each word's
distinct letters are counted once, so a letter's count is the number of words
containing it. -/
def letter_counts (words : List Word) : Char → Nat :=
  fun c => (words.filter (fun w => decide (c ∈ w))).length

/-- The inner `score` closure: walks the word's letters, adding
`letter_counts[ch]` the first time each letter is seen (`used`/`seen` set). -/
def coverage_score_loop (counts : Char → Nat) : List Char → List Char → Nat
  | [], _ => 0
  | ch :: rest, used =>
    if ch ∈ used then coverage_score_loop counts rest used
    else counts ch + coverage_score_loop counts rest (ch :: used)

/-- The `score(word)` closure of the ranking helpers. -/
def coverage_score (counts : Char → Nat) (word : Word) : Nat :=
  coverage_score_loop counts word []

/-- Python's `sorted(words, key=score, reverse=True)` is a stable descending
sort by `score`; the stable result is unique, so the stable insertion sort
computes exactly what Python's `sorted` returns. -/
def sort_desc_by (score : Word → Nat) (words : List Word) : List Word :=
  List.insertionSort (fun a b => score b ≤ score a) words

/-- Embeds `WordleSolver._rank_words_by_letter_coverage`. -/
def rank_words_by_letter_coverage (words : List Word) : List Word :=
  sort_desc_by (coverage_score (letter_counts words)) words

/-- The state of a constructed `WordleSolver` (the fields `__init__` sets). -/
structure WordleSolver where
  words : List Word
  max_eval_guesses : Nat
  full_eval_limit : Nat
  heuristic_ranking : List Word
  freqs : Word → ℝ

/-- Embeds `WordleSolver._build_frequency_map`, with the dicts modelled by
lookup functions (result: `.get(·, 0.0)`).  The optional
`wordfreq.zipf_frequency` dependency is injected as `zipf`; `none` models the
failed import, where every listed word defaults to `0.0`. -/
def build_frequency_map (words : List Word) (external : Word → Option ℝ)
    (zipf : Option (Word → ℝ)) : Word → ℝ :=
  fun w =>
    if w ∈ words then
      match external w with
      | some v => v
      | none =>
        match zipf with
        | some z => z w
        | none => 0
    else 0

/-- Embeds `WordleSolver.__init__` (source defaults: `max_eval_guesses =
900`, `full_eval_limit = 1500`).  Note that it stores the word list and the
derived data unconditionally: the source has no emptiness check here. -/
def WordleSolver.init (words : List Word)
    (max_eval_guesses full_eval_limit : Nat)
    (frequencies : Word → Option ℝ) (zipf : Option (Word → ℝ)) :
    WordleSolver :=
  { words := words
    max_eval_guesses := max_eval_guesses
    full_eval_limit := full_eval_limit
    heuristic_ranking := rank_words_by_letter_coverage words
    freqs := build_frequency_map words frequencies zipf }

/-- Embeds `WordleSolver._top_candidate_words`. -/
def top_candidate_words (candidates : List Word) (cap : Nat) : List Word :=
  if candidates.length ≤ cap then candidates
  else (sort_desc_by (coverage_score (letter_counts candidates))
    candidates).take cap

/-- The fill loop of `guess_space`.  The Python `seen` set always holds
exactly the words of `subset` (both start that way and grow together), so
membership is tested on `subset` directly. -/
def fill_pool (maxEval : Nat) : List Word → List Word → List Word
  | subset, [] => subset
  | subset, w :: rest =>
    if maxEval ≤ subset.length then subset
    else if w ∈ subset then fill_pool maxEval subset rest
    else fill_pool maxEval (subset ++ [w]) rest

/-- First-occurrence deduplication — the selection a traversal with a `seen`
set makes.  Used on the specification side to characterize exactly which
ranking words the fill loop of `guess_space` appends. -/
def dedup_first : List Word → List Word
  | [] => []
  | w :: rest => w :: dedup_first (rest.filter (fun v => decide (v ≠ w)))
termination_by l => l.length
decreasing_by
  simp only [List.length_cons]
  exact Nat.lt_succ_of_le (List.length_filter_le _ _)

/-- Embeds `WordleSolver.guess_space`. -/
def guess_space (S : WordleSolver) (candidates : List Word) : List Word :=
  if candidates.length ≤ S.full_eval_limit then S.words
  else fill_pool S.max_eval_guesses
    (top_candidate_words candidates (S.max_eval_guesses / 2))
    S.heuristic_ranking

/-- Embeds `WordleSolver.expected_information`: buckets the candidates by the
feedback code they produce against `guess` (the `counts` dict), then folds
`frequency -= p * log2(p)` over the buckets.  The dict's key set is the
deduplicated code list; each bucket count is the number of candidates mapping
to that code. -/
noncomputable def expected_information (guess : Word)
    (candidates : List Word) : ℝ :=
  let codes := candidates.map (fun answer => pattern_codeD answer guess)
  (codes.dedup.map (fun k =>
    -(((codes.count k : ℝ) / (candidates.length : ℝ)) *
      Real.logb 2 ((codes.count k : ℝ) / (candidates.length : ℝ))))).sum

/-- The Python key tuple
`(frequency, guess in candidate_set, self._freqs.get(guess, 0.0))`. -/
noncomputable def guess_key (S : WordleSolver) (candidates : List Word)
    (guess : Word) : ℝ × Bool × ℝ :=
  (expected_information guess candidates, candidates.contains guess,
    S.freqs guess)

/-- Python's `metadata > best_key` on key tuples: lexicographically greater,
with `False < True` in the middle component. -/
def keyGT (a b : ℝ × Bool × ℝ) : Prop :=
  b.1 < a.1 ∨ (a.1 = b.1 ∧ ((b.2.1 = false ∧ a.2.1 = true) ∨
    (a.2.1 = b.2.1 ∧ b.2.2 < a.2.2)))

open Classical in
/-- One iteration of the `best_guess` selection loop. -/
noncomputable def best_step (S : WordleSolver) (candidates : List Word)
    (acc : Option (Word × (ℝ × Bool × ℝ))) (guess : Word) :
    Option (Word × (ℝ × Bool × ℝ)) :=
  match acc with
  | none => some (guess, guess_key S candidates guess)
  | some (bw, bk) =>
    if keyGT (guess_key S candidates guess) bk then
      some (guess, guess_key S candidates guess)
    else some (bw, bk)

/-- Embeds `WordleSolver.best_guess`; `none` models the
`RuntimeError("Failed to select a guess")` — the spec's `NoGuessAvailable`. -/
noncomputable def best_guess (S : WordleSolver) (candidates : List Word) :
    Option (Word × ℝ) :=
  ((guess_space S candidates).foldl (best_step S candidates) none).map
    (fun r => (r.1, r.2.1))

/-- Embeds `WordleSolver.filter_candidates` (a method that reads no solver
state). -/
def filter_candidates (candidates : List Word) (guess : Word)
    (feedback_code : Nat) : List Word :=
  candidates.filter (fun word => pattern_codeD word guess == feedback_code)

/-- Python's `line.strip().lower()`. -/
def strip_lower (line : List Char) : List Char :=
  (((line.dropWhile Char.isWhitespace).reverse.dropWhile
    Char.isWhitespace).reverse).map Char.toLower

/-- Embeds `load_words`, with the file contents given as its list of lines;
`none` models the `ValueError` raised when no `word_len`-letter words are
found. -/
def load_words (lines : List (List Char)) : Option (List Word) :=
  let words := (lines.map strip_lower).filter (fun w => w.length == word_len)
  if words.isEmpty then none else some words

/-- Shannon entropy as the specification words it (claim C4):
`H = -Σ p_k log2 p_k` over the observed feedback buckets `k`, with
`p_k = count_k / |candidates|`. -/
noncomputable def entropy_spec (guess : Word) (candidates : List Word) : ℝ :=
  -∑ k ∈ (candidates.map (fun answer => pattern_codeD answer guess)).toFinset,
    (((candidates.map (fun answer => pattern_codeD answer guess)).count k : ℝ) /
        (candidates.length : ℝ)) *
      Real.logb 2
        (((candidates.map (fun answer => pattern_codeD answer guess)).count k : ℝ) /
          (candidates.length : ℝ))

/-! ### The two loops of `pattern_code` against the specification -/

theorem pass1_eq (ps : List (Char × Char)) (sts : List Nat) (pool : Char → Nat)
    (hlen : ps.length ≤ sts.length) (hz : ∀ x ∈ sts, x = 0) :
    pass1 ps sts pool =
      some (ps.map (fun p => if p.1 = p.2 then 2 else 0) ++ sts.drop ps.length,
        fun c => pool c +
          ((ps.filter (fun p => decide (p.1 ≠ p.2))).map Prod.snd).count c) := by
  induction ps generalizing sts pool with
  | nil =>
    simp [pass1]
  | cons p rest ih =>
    obtain ⟨g, s⟩ := p
    match sts with
    | [] => simp at hlen
    | st :: sts' =>
      have hst : st = 0 := hz st (by simp)
      have hlen' : rest.length ≤ sts'.length := by
        simpa using Nat.le_of_succ_le_succ hlen
      have hz' : ∀ x ∈ sts', x = 0 := fun x hx => hz x (by simp [hx])
      by_cases hgs : g = s
      · simp only [pass1, if_pos hgs, ih sts' pool hlen' hz', Option.map_some']
        simp [hgs]
      · simp only [pass1, if_neg hgs, ih sts' (poolAdd pool s) hlen' hz',
          Option.map_some', Option.some.injEq, Prod.mk.injEq]
        have hfil : List.filter (fun p => decide (p.1 ≠ p.2)) ((g, s) :: rest) =
            (g, s) :: List.filter (fun p => decide (p.1 ≠ p.2)) rest := by
          simp [hgs]
        constructor
        · simp [hgs, hst]
        · funext c
          rw [hfil, List.map_cons]
          by_cases hcs : c = s
          · subst hcs
            simp only [poolAdd, List.count_cons, if_pos rfl, beq_self_eq_true,
              if_true]
            omega
          · simp [poolAdd, hcs, List.count_cons, Ne.symm hcs]

theorem pass2_eq (gs : List Char) (bs : List Bool) (pool : Char → Nat)
    (m : Multiset Char) (hlen : gs.length = bs.length)
    (hpool : ∀ c, pool c = m.count c) :
    pass2 gs (bs.map (fun b => if b then 2 else 0)) pool =
      some (spec_states (gs.zip bs) m) := by
  induction gs generalizing bs pool m with
  | nil =>
    match bs with
    | [] => simp [pass2, spec_states]
    | _ :: _ => simp at hlen
  | cons g gs' ih =>
    match bs with
    | [] => simp at hlen
    | b :: bs' =>
      have hlen' : gs'.length = bs'.length := by simpa using hlen
      cases b with
      | true =>
        have := ih bs' pool m hlen' hpool
        simp [pass2, spec_states, this, List.zip]
      | false =>
        by_cases hrem : pool g = 0
        · have hcount : ¬ 0 < m.count g := by
            have := hpool g
            omega
          have := ih bs' pool m hlen' hpool
          simp [pass2, spec_states, hrem, hcount, this, List.zip]
        · have hcount : 0 < m.count g := by
            have := hpool g
            omega
          have hpool' : ∀ c,
              (if pool g = 1 then (fun c => if c = g then 0 else pool c)
               else (fun c => if c = g then pool g - 1 else pool c)) c =
              (m.erase g).count c := by
            intro c
            by_cases hcg : c = g
            · subst hcg
              rw [Multiset.count_erase_self]
              by_cases h1 : pool c = 1
              · simp [h1, ← hpool c]
              · simp [h1, ← hpool c]
            · rw [Multiset.count_erase_of_ne hcg]
              by_cases h1 : pool g = 1 <;> simp [h1, hcg, ← hpool c]
          have := ih bs' _ (m.erase g) hlen' hpool'
          simp [pass2, spec_states, hrem, hcount, this, List.zip]

theorem pack_aux (l : List Nat) (a : Nat) :
    l.foldl (fun v st => v * 3 + st) a = a * 3 ^ l.length + pack_msb l := by
  induction l generalizing a with
  | nil => simp [pack_msb]
  | cons st rest ih =>
    simp only [List.foldl_cons, ih, pack_msb, List.length_cons]
    ring

theorem pack_eq_pack_msb (l : List Nat) : pack l = pack_msb l := by
  simp [pack, pack_aux]

theorem zip_swap_filter (l1 l2 : List Char) :
    ((l2.zip l1).filter (fun p => decide (p.1 ≠ p.2))).map Prod.snd =
      ((l1.zip l2).filter (fun p => decide (p.1 ≠ p.2))).map Prod.fst := by
  induction l1 generalizing l2 with
  | nil => simp
  | cons a l1' ih =>
    match l2 with
    | [] => simp
    | b :: l2' =>
      have h := ih l2'
      simp only [List.zip_cons_cons, List.filter_cons]
      by_cases hab : a = b
      · subst hab
        simpa using h
      · simpa [hab, Ne.symm hab] using h

/-- For words satisfying the length invariant, the Python `pattern_code`
computes exactly the specification's encoding. -/
theorem pattern_code_eq_encode_spec (hidden guess : Word)
    (hh : hidden.length = word_len) (hg : guess.length = word_len) :
    pattern_code hidden guess = some (encode_spec hidden guess) := by
  have hziplen : (guess.zip hidden).length = word_len := by
    simp [List.length_zip, hh, hg]
  have h1 := pass1_eq (guess.zip hidden) (List.replicate word_len 0)
    (fun _ => 0) (by simp [hziplen]) (by simp)
  have hmask : (guess.zip hidden).map (fun p => if p.1 = p.2 then 2 else 0) =
      (exact_mask hidden guess).map (fun b => if b then 2 else 0) := by
    simp only [exact_mask, List.map_map]
    apply List.map_congr_left
    intro p _
    by_cases h : p.1 = p.2 <;> simp [h]
  have hmasklen : guess.length = (exact_mask hidden guess).length := by
    simp [exact_mask, List.length_zip, hh, hg]
  have hpool : ∀ c,
      (fun c => (fun _ => 0) c +
        (((guess.zip hidden).filter (fun p => decide (p.1 ≠ p.2))).map
          Prod.snd).count c) c = (unmatched_multiset hidden guess).count c := by
    intro c
    simp only [unmatched_multiset, Multiset.coe_count, zip_swap_filter, Nat.zero_add]
  have h2 := pass2_eq guess (exact_mask hidden guess) _ _ hmasklen hpool
  simp only [pattern_code, h1, hziplen, List.drop_replicate, Nat.sub_self,
    List.replicate_zero, List.append_nil, hmask, h2, encode_spec,
    pack_eq_pack_msb]

/-- Unfolding of `present_count` over a position that is counted. -/
theorem present_count_cons_hit (g : Char) (gs : Word) (sts : List Nat) :
    present_count (g :: gs) (1 :: sts) g = present_count gs sts g + 1 := by
  simp [present_count, List.filter_cons]

/-- Unfolding of `present_count` over a position that is not counted. -/
theorem present_count_cons_miss (g : Char) (st : Nat) (gs : Word)
    (sts : List Nat) (ch : Char) (h : ¬(g = ch ∧ st = 1)) :
    present_count (g :: gs) (st :: sts) ch = present_count gs sts ch := by
  have hcond : (g == ch && st == 1) = false := by
    by_cases h1 : g = ch
    · by_cases h2 : st = 1
      · exact absurd ⟨h1, h2⟩ h
      · simp [h2]
    · simp [h1]
  simp [present_count, List.filter_cons, hcond]

/-- A guess letter is marked `present` at most as many times as it occurs in
the multiset of unmatched hidden letters. -/
theorem present_count_le (l : List (Char × Bool)) (m : Multiset Char)
    (ch : Char) :
    present_count (l.map Prod.fst) (spec_states l m) ch ≤ m.count ch := by
  induction l generalizing m with
  | nil => simp [present_count, spec_states]
  | cons p rest ih =>
    obtain ⟨g, b⟩ := p
    cases b with
    | true =>
      rw [List.map_cons,
        show spec_states ((g, true) :: rest) m = 2 :: spec_states rest m
          from rfl,
        present_count_cons_miss g 2 _ _ ch (by simp)]
      exact ih m
    | false =>
      rw [List.map_cons,
        show spec_states ((g, false) :: rest) m =
          (if 0 < m.count g then 1 :: spec_states rest (m.erase g)
           else 0 :: spec_states rest m) from rfl]
      by_cases hcount : 0 < m.count g
      · rw [if_pos hcount]
        by_cases hgch : g = ch
        · subst hgch
          simp only [show ((g, false) : Char × Bool).1 = g from rfl]
          rw [present_count_cons_hit]
          have := ih (m.erase g)
          rw [Multiset.count_erase_self] at this
          omega
        · rw [present_count_cons_miss g 1 _ _ ch (fun h => hgch h.1)]
          have := ih (m.erase g)
          rw [Multiset.count_erase_of_ne (Ne.symm hgch)] at this
          exact this
      · rw [if_neg hcount,
          present_count_cons_miss g 0 _ _ ch (by simp)]
        exact ih m

/-! ### Claim C1 -/

/-- C1: for words of length `word_len`, `pattern_code` marks position `i`
exact iff `guess[i] == hidden[i]`, builds the multiset of the hidden word's
letters at non-exact positions, scans guess positions left to right marking
`present` exactly while the letter has remaining count > 0 in that multiset
(decrementing it) and `absent` otherwise, and packs the per-position states
into a base-3 integer most-significant digit first — it equals `encode_spec`,
the transliteration of that description; moreover a repeated guess letter is
marked `present` at most as many times as it has unmatched occurrences in the
hidden word. -/
theorem C1_pattern_code_follows_spec (hidden guess : Word)
    (hh : hidden.length = word_len) (hg : guess.length = word_len) :
    pattern_code hidden guess = some (encode_spec hidden guess) ∧
    ∀ ch : Char,
      present_count guess
          (spec_states (guess.zip (exact_mask hidden guess))
            (unmatched_multiset hidden guess)) ch ≤
        (unmatched_multiset hidden guess).count ch := by
  refine ⟨pattern_code_eq_encode_spec hidden guess hh hg, fun ch => ?_⟩
  have hfst : (guess.zip (exact_mask hidden guess)).map Prod.fst = guess := by
    apply List.map_fst_zip
    simp [exact_mask, List.length_zip, hh, hg]
  have h := present_count_le (guess.zip (exact_mask hidden guess))
    (unmatched_multiset hidden guess) ch
  rwa [hfst] at h

/-- Witness for C1 at hidden = "speed", guess = "eerie" (the spec's
duplicate-letter example). -/
theorem C1_witness :
    pattern_code ("speed".toList) ("eerie".toList) =
      some (encode_spec ("speed".toList) ("eerie".toList)) ∧
    ∀ ch : Char,
      present_count ("eerie".toList)
          (spec_states (("eerie".toList).zip
              (exact_mask ("speed".toList) ("eerie".toList)))
            (unmatched_multiset ("speed".toList) ("eerie".toList))) ch ≤
        (unmatched_multiset ("speed".toList) ("eerie".toList)).count ch :=
  C1_pattern_code_follows_spec ("speed".toList) ("eerie".toList)
    (by decide) (by decide)

/-! ### Claim C6 -/

set_option maxRecDepth 4000 in
/-- C6: for every feedback code below `3 ^ word_len`, `pattern_to_string`
produces a `word_len`-character string over the `b`/`y`/`g` alphabet whose
last position holds the least-significant base-3 digit, and
`string_to_pattern` maps it back to exactly the original code. -/
theorem C6_roundtrip :
    ∀ code < 3 ^ word_len,
      string_to_pattern (pattern_to_string code) = some code ∧
      (pattern_to_string code).length = word_len ∧
      (∀ ch ∈ pattern_to_string code, ch ∈ characters) ∧
      (pattern_to_string code).getLast? =
        some (characters.getD (code % 3) 'b') := by
  decide

/-- Witness for C6 at code 107. -/
theorem C6_witness :
    string_to_pattern (pattern_to_string 107) = some 107 ∧
    (pattern_to_string 107).length = word_len ∧
    (∀ ch ∈ pattern_to_string 107, ch ∈ characters) ∧
    (pattern_to_string 107).getLast? =
      some (characters.getD (107 % 3) 'b') :=
  C6_roundtrip 107 (by decide)

/-! ### Claim C7 -/

theorem spec_states_length (l : List (Char × Bool)) (m : Multiset Char) :
    (spec_states l m).length = l.length := by
  induction l generalizing m with
  | nil => simp [spec_states]
  | cons p rest ih =>
    obtain ⟨g, b⟩ := p
    cases b with
    | true => simp [spec_states, ih]
    | false =>
      by_cases h : 0 < m.count g <;> simp [spec_states, h, ih]

theorem spec_states_le_two (l : List (Char × Bool)) (m : Multiset Char) :
    ∀ st ∈ spec_states l m, st ≤ 2 := by
  induction l generalizing m with
  | nil => simp [spec_states]
  | cons p rest ih =>
    obtain ⟨g, b⟩ := p
    cases b with
    | true =>
      intro st hst
      rw [show spec_states ((g, true) :: rest) m = 2 :: spec_states rest m
        from rfl] at hst
      rcases List.mem_cons.mp hst with h | h
      · omega
      · exact ih m st h
    | false =>
      intro st hst
      rw [show spec_states ((g, false) :: rest) m =
        (if 0 < m.count g then 1 :: spec_states rest (m.erase g)
         else 0 :: spec_states rest m) from rfl] at hst
      by_cases h : 0 < m.count g
      · rw [if_pos h] at hst
        rcases List.mem_cons.mp hst with h' | h'
        · omega
        · exact ih (m.erase g) st h'
      · rw [if_neg h] at hst
        rcases List.mem_cons.mp hst with h' | h'
        · omega
        · exact ih m st h'

theorem pack_msb_le (l : List Nat) (h : ∀ st ∈ l, st ≤ 2) :
    pack_msb l ≤ 3 ^ l.length - 1 := by
  induction l with
  | nil => simp [pack_msb]
  | cons st rest ih =>
    have hst : st ≤ 2 := h st (by simp)
    have hrest := ih (fun x hx => h x (by simp [hx]))
    have hpow : 1 ≤ 3 ^ rest.length := Nat.one_le_pow _ _ (by norm_num)
    have h1 : st * 3 ^ rest.length ≤ 2 * 3 ^ rest.length :=
      Nat.mul_le_mul_right _ hst
    have h2 : (3 : Nat) ^ (rest.length + 1) = 3 * 3 ^ rest.length := by
      rw [pow_succ]
      ring
    simp only [pack_msb, List.length_cons, h2]
    omega

theorem pack_msb_eq_max_iff (l : List Nat) (h : ∀ st ∈ l, st ≤ 2) :
    pack_msb l = 3 ^ l.length - 1 ↔ ∀ st ∈ l, st = 2 := by
  induction l with
  | nil => simp [pack_msb]
  | cons st rest ih =>
    have hst : st ≤ 2 := h st (by simp)
    have hrest_le := pack_msb_le rest (fun x hx => h x (by simp [hx]))
    have hih := ih (fun x hx => h x (by simp [hx]))
    have hpow : 1 ≤ 3 ^ rest.length := Nat.one_le_pow _ _ (by norm_num)
    have h2 : (3 : Nat) ^ (rest.length + 1) = 3 * 3 ^ rest.length := by
      rw [pow_succ]
      ring
    simp only [pack_msb, List.length_cons, h2, List.mem_cons,
      forall_eq_or_imp]
    constructor
    · intro heq
      have hst2 : st = 2 := by
        rcases Nat.lt_or_ge st 2 with hlt | hge
        · exfalso
          have hb : st * 3 ^ rest.length ≤ 1 * 3 ^ rest.length :=
            Nat.mul_le_mul_right _ (by omega)
          omega
        · omega
      subst hst2
      have hr : pack_msb rest = 3 ^ rest.length - 1 := by omega
      exact ⟨rfl, hih.mp hr⟩
    · rintro ⟨rfl, hall⟩
      have hr : pack_msb rest = 3 ^ rest.length - 1 := hih.mpr hall
      omega

theorem zip_pointwise_eq (l1 l2 : List Char) (hlen : l1.length = l2.length)
    (h : ∀ p ∈ l1.zip l2, p.1 = p.2) : l1 = l2 := by
  induction l1 generalizing l2 with
  | nil =>
    cases l2 with
    | nil => rfl
    | cons b t => simp at hlen
  | cons a t1 ih =>
    cases l2 with
    | nil => simp at hlen
    | cons b t2 =>
      have h1 : a = b := h (a, b) (by simp)
      have h2 : t1 = t2 := ih t2 (by simpa using hlen)
        (fun p hp => h p (by simp [List.zip_cons_cons, hp]))
      rw [h1, h2]

theorem zip_self_eq (l : List Char) : ∀ p ∈ l.zip l, p.1 = p.2 := by
  induction l with
  | nil => simp
  | cons a rest ih =>
    intro p hp
    rcases List.mem_cons.mp hp with h | h
    · rw [h]
    · exact ih p h

theorem spec_states_all_two_iff (l : List (Char × Bool)) (m : Multiset Char) :
    (∀ st ∈ spec_states l m, st = 2) ↔ ∀ p ∈ l, p.2 = true := by
  induction l generalizing m with
  | nil => simp [spec_states]
  | cons p rest ih =>
    obtain ⟨g, b⟩ := p
    cases b with
    | true =>
      rw [show spec_states ((g, true) :: rest) m = 2 :: spec_states rest m
        from rfl]
      simp [ih m]
    | false =>
      by_cases h : 0 < m.count g
      · rw [show spec_states ((g, false) :: rest) m =
          (if 0 < m.count g then 1 :: spec_states rest (m.erase g)
           else 0 :: spec_states rest m) from rfl, if_pos h]
        simp
      · rw [show spec_states ((g, false) :: rest) m =
          (if 0 < m.count g then 1 :: spec_states rest (m.erase g)
           else 0 :: spec_states rest m) from rfl, if_neg h]
        simp

/-- The all-exact code characterizes equality of hidden word and guess. -/
theorem encode_spec_eq_completion_iff (hidden guess : Word)
    (hh : hidden.length = word_len) (hg : guess.length = word_len) :
    encode_spec hidden guess = completion ↔ hidden = guess := by
  have hmasklen : (exact_mask hidden guess).length = word_len := by
    simp [exact_mask, List.length_zip, hh, hg]
  have hziplen : (guess.zip (exact_mask hidden guess)).length = word_len := by
    simp [List.length_zip, hg, hmasklen]
  have hstlen : (spec_states (guess.zip (exact_mask hidden guess))
      (unmatched_multiset hidden guess)).length = word_len := by
    rw [spec_states_length, hziplen]
  rw [encode_spec, completion, ← hstlen,
    pack_msb_eq_max_iff _ (spec_states_le_two _ _),
    spec_states_all_two_iff]
  have hsnd : (guess.zip (exact_mask hidden guess)).map Prod.snd =
      exact_mask hidden guess := by
    apply List.map_snd_zip
    omega
  constructor
  · intro hall
    have hmask : ∀ b ∈ exact_mask hidden guess, b = true := by
      intro b hb
      rw [← hsnd] at hb
      rcases List.mem_map.mp hb with ⟨p, hp, rfl⟩
      exact hall p hp
    have heq : ∀ p ∈ guess.zip hidden, p.1 = p.2 := by
      intro p hp
      have : decide (p.1 = p.2) = true := by
        apply hmask
        exact List.mem_map.mpr ⟨p, hp, rfl⟩
      exact of_decide_eq_true this
    exact (zip_pointwise_eq guess hidden (by omega) heq).symm
  · rintro rfl
    intro p hp
    have hp2 : p.2 ∈ exact_mask hidden hidden := (List.of_mem_zip hp).2
    rw [exact_mask] at hp2
    rcases List.mem_map.mp hp2 with ⟨q, hq, hqe⟩
    rw [← hqe, decide_eq_true_eq]
    exact zip_self_eq hidden q hq

/-- Under the Word length invariant the Python call never faults, so it
agrees with the total view `pattern_codeD`. -/
theorem pattern_code_eq_someD (hidden guess : Word)
    (hh : hidden.length = word_len) (hg : guess.length = word_len) :
    pattern_code hidden guess = some (pattern_codeD hidden guess) := by
  rw [pattern_codeD, pattern_code_eq_encode_spec hidden guess hh hg]
  rfl

theorem pattern_codeD_eq_encode_spec (hidden guess : Word)
    (hh : hidden.length = word_len) (hg : guess.length = word_len) :
    pattern_codeD hidden guess = encode_spec hidden guess := by
  rw [pattern_codeD, pattern_code_eq_encode_spec hidden guess hh hg]
  rfl

/-- C7: for length-`word_len` words, the feedback code is the all-exact code
`3 ^ word_len - 1` iff hidden word and guess are equal; `encode(w, w)` is
that code for every word `w`; and filtering any candidate list with guess `g`
and the all-exact feedback keeps exactly the words equal to `g`. -/
theorem C7_all_exact (w g : Word) (c : List Word)
    (hw : w.length = word_len) (hg : g.length = word_len)
    (hc : ∀ x ∈ c, x.length = word_len) :
    (pattern_code w g = some completion ↔ w = g) ∧
    pattern_code w w = some completion ∧
    filter_candidates c g completion = c.filter (fun x => x == g) := by
  have key : ∀ x : Word, x.length = word_len →
      (pattern_codeD x g = completion ↔ x = g) := by
    intro x hx
    rw [pattern_codeD_eq_encode_spec x g hx hg]
    exact encode_spec_eq_completion_iff x g hx hg
  refine ⟨?_, ?_, ?_⟩
  · rw [pattern_code_eq_someD w g hw hg]
    simp only [Option.some.injEq]
    exact key w hw
  · have hcompl : encode_spec w w = completion :=
      (encode_spec_eq_completion_iff w w hw hw).mpr rfl
    rw [pattern_code_eq_encode_spec w w hw hw, hcompl]
  · rw [filter_candidates]
    apply List.filter_congr
    intro x hx
    by_cases hxg : x = g
    · simp [hxg, (key g hg).mpr rfl]
    · have hne : pattern_codeD x g ≠ completion :=
        fun hcontra => hxg ((key x (hc x hx)).mp hcontra)
      simp [hxg, hne]

/-- Witness for C7 at w = "slate", g = "crane",
candidates = ["crane", "slate"]. -/
theorem C7_witness :
    (pattern_code ("slate".toList) ("crane".toList) = some completion ↔
      "slate".toList = "crane".toList) ∧
    pattern_code ("slate".toList) ("slate".toList) = some completion ∧
    filter_candidates ["crane".toList, "slate".toList] ("crane".toList)
        completion =
      ["crane".toList, "slate".toList].filter (fun x => x == "crane".toList) :=
  C7_all_exact ("slate".toList) ("crane".toList)
    ["crane".toList, "slate".toList] (by decide) (by decide) (by decide)

/-! ### Claim C2 -/

/-- C2: `filter_candidates` keeps exactly the candidates whose feedback
against the guess equals the given code, as an order-preserving subsequence
of the candidate list; its length never exceeds the candidate count; and a
hidden word in the list always survives filtering by the feedback code it
actually produces against the guess. -/
theorem C2_filter_candidates (c : List Word) (g : Word) (f : Nat)
    (hg : g.length = word_len) (hc : ∀ w ∈ c, w.length = word_len) :
    (∀ w, w ∈ filter_candidates c g f ↔
      w ∈ c ∧ pattern_code w g = some f) ∧
    (filter_candidates c g f).Sublist c ∧
    (filter_candidates c g f).length ≤ c.length ∧
    ∀ hidden f', hidden ∈ c → pattern_code hidden g = some f' →
      hidden ∈ filter_candidates c g f' := by
  refine ⟨?_, List.filter_sublist c, List.length_filter_le _ c, ?_⟩
  · intro w
    rw [filter_candidates, List.mem_filter]
    constructor
    · rintro ⟨hw, hcode⟩
      have hlen := hc w hw
      have hval : pattern_codeD w g = f := by simpa using hcode
      exact ⟨hw, by rw [pattern_code_eq_someD w g hlen hg, hval]⟩
    · rintro ⟨hw, hcode⟩
      have hlen := hc w hw
      rw [pattern_code_eq_someD w g hlen hg] at hcode
      have hval : pattern_codeD w g = f := Option.some.inj hcode
      exact ⟨hw, by simp [hval]⟩
  · intro hidden f' hmem hcode
    have hlen := hc hidden hmem
    rw [pattern_code_eq_someD hidden g hlen hg] at hcode
    have hval := Option.some.inj hcode
    rw [filter_candidates, List.mem_filter]
    exact ⟨hmem, by simp [hval]⟩

/-- Witness for C2 at candidates = ["crane", "slate"], guess = "crane",
feedback = 0. -/
theorem C2_witness :
    (∀ w, w ∈ filter_candidates ["crane".toList, "slate".toList]
        ("crane".toList) 0 ↔
      w ∈ ["crane".toList, "slate".toList] ∧
        pattern_code w ("crane".toList) = some 0) ∧
    (filter_candidates ["crane".toList, "slate".toList]
        ("crane".toList) 0).Sublist ["crane".toList, "slate".toList] ∧
    (filter_candidates ["crane".toList, "slate".toList]
        ("crane".toList) 0).length ≤
      (["crane".toList, "slate".toList] : List Word).length ∧
    ∀ hidden f', hidden ∈ ["crane".toList, "slate".toList] →
      pattern_code hidden ("crane".toList) = some f' →
      hidden ∈ filter_candidates ["crane".toList, "slate".toList]
        ("crane".toList) f' :=
  C2_filter_candidates ["crane".toList, "slate".toList] ("crane".toList) 0
    (by decide) (by decide)

/-! ### Claim C9 -/

theorem pass1_isSome (ps : List (Char × Char)) (sts : List Nat)
    (pool : Char → Nat) (hlen : ps.length ≤ sts.length) :
    ∃ out, pass1 ps sts pool = some out ∧ out.1.length = sts.length := by
  induction ps generalizing sts pool with
  | nil => exact ⟨(sts, pool), rfl, rfl⟩
  | cons p rest ih =>
    obtain ⟨g, s⟩ := p
    match sts with
    | [] => simp at hlen
    | st :: sts' =>
      have hlen' : rest.length ≤ sts'.length := by simpa using hlen
      by_cases hgs : g = s
      · obtain ⟨out, hout, hlen2⟩ := ih sts' pool hlen'
        refine ⟨(2 :: out.1, out.2), ?_, by simp [hlen2]⟩
        simp [pass1, hgs, hout]
      · obtain ⟨out, hout, hlen2⟩ := ih sts' (poolAdd pool s) hlen'
        refine ⟨(st :: out.1, out.2), ?_, by simp [hlen2]⟩
        simp [pass1, hgs, hout]

theorem pass1_none (ps : List (Char × Char)) (sts : List Nat)
    (pool : Char → Nat) (hlen : sts.length < ps.length) :
    pass1 ps sts pool = none := by
  induction ps generalizing sts pool with
  | nil => simp at hlen
  | cons p rest ih =>
    obtain ⟨g, s⟩ := p
    match sts with
    | [] => rfl
    | st :: sts' =>
      have hlen' : sts'.length < rest.length := by simpa using hlen
      by_cases hgs : g = s
      · simp [pass1, hgs, ih sts' pool hlen']
      · simp [pass1, hgs, ih sts' (poolAdd pool s) hlen']

theorem pass2_isSome (gs : List Char) (sts : List Nat) (pool : Char → Nat)
    (hlen : gs.length ≤ sts.length) :
    ∃ out, pass2 gs sts pool = some out := by
  induction gs generalizing sts pool with
  | nil => exact ⟨sts, rfl⟩
  | cons g gs' ih =>
    match sts with
    | [] => simp at hlen
    | st :: sts' =>
      have hlen' : gs'.length ≤ sts'.length := by simpa using hlen
      by_cases hst : st = 0
      · subst hst
        by_cases hrem : pool g = 0
        · obtain ⟨out, hout⟩ := ih sts' pool hlen'
          exact ⟨0 :: out, by simp [pass2, hrem, hout]⟩
        · obtain ⟨out, hout⟩ := ih sts'
            (if pool g = 1 then (fun c => if c = g then 0 else pool c)
             else (fun c => if c = g then pool g - 1 else pool c)) hlen'
          exact ⟨1 :: out, by simp [pass2, hrem, hout]⟩
      · obtain ⟨out, hout⟩ := ih sts' pool hlen'
        exact ⟨st :: out, by simp [pass2, hst, hout]⟩

theorem pass2_none (gs : List Char) (sts : List Nat) (pool : Char → Nat)
    (hlen : sts.length < gs.length) : pass2 gs sts pool = none := by
  induction gs generalizing sts pool with
  | nil => simp at hlen
  | cons g gs' ih =>
    match sts with
    | [] => rfl
    | st :: sts' =>
      have hlen' : sts'.length < gs'.length := by simpa using hlen
      by_cases hst : st = 0
      · subst hst
        by_cases hrem : pool g = 0
        · simp [pass2, hrem, ih sts' pool hlen']
        · simp [pass2, hrem, ih sts'
            (if pool g = 1 then (fun c => if c = g then 0 else pool c)
             else (fun c => if c = g then pool g - 1 else pool c)) hlen']
      · simp [pass2, hst, ih sts' pool hlen']

/-- `pattern_code` never faults on a guess of length at most `word_len`,
whatever the secret's length. -/
theorem pattern_code_isSome_of_le (secret guess : Word)
    (hg : guess.length ≤ word_len) :
    ∃ code, pattern_code secret guess = some code := by
  have hzip : (guess.zip secret).length ≤
      (List.replicate word_len (0 : Nat)).length := by
    simp only [List.length_zip, List.length_replicate]
    omega
  obtain ⟨out, hout, hlen⟩ :=
    pass1_isSome (guess.zip secret) _ (fun _ => 0) hzip
  obtain ⟨sts1, pool1⟩ := out
  obtain ⟨out2, hout2⟩ := pass2_isSome guess sts1 pool1
    (by simp only [List.length_replicate] at hlen; simpa [hlen] using hg)
  exact ⟨pack out2, by simp [pattern_code, hout, hout2]⟩

/-- `pattern_code` faults (Python `IndexError`) on every guess longer than
`word_len`. -/
theorem pattern_code_none_of_gt (secret guess : Word)
    (hg : word_len < guess.length) :
    pattern_code secret guess = none := by
  by_cases hzip : (guess.zip secret).length ≤ word_len
  · obtain ⟨out, hout, hlen⟩ := pass1_isSome (guess.zip secret)
      (List.replicate word_len 0) (fun _ => 0) (by simpa using hzip)
    obtain ⟨sts1, pool1⟩ := out
    have h2 : pass2 guess sts1 pool1 = none := by
      apply pass2_none
      simp only [List.length_replicate] at hlen
      simp [hlen, hg]
    simp [pattern_code, hout, h2]
  · have h1 : pass1 (guess.zip secret) (List.replicate word_len 0)
        (fun _ => 0) = none := by
      apply pass1_none
      simpa using Nat.lt_of_not_le hzip
    simp [pattern_code, h1]

/-- C9 counterexample: `pattern_code` happily returns a feedback code for a
four-letter guess against a five-letter hidden word — no typed
`InvalidWordLength` rejection happens. -/
theorem C9_counterexample :
    pattern_code ("speed".toList) ("spee".toList) = some 240 := by
  decide

/-- C9 (amended): `pattern_code` performs no length validation.  A guess of
length at most `word_len` always yields a code, silently computed from the
zipped overlap even when the lengths are mismatched; a longer guess fails
with an untyped fault (Python `IndexError`, modelled by `none`), not with a
typed `InvalidWordLength` error. -/
theorem C9_no_length_validation :
    (∀ secret guess : Word, guess.length ≤ word_len →
      ∃ code, pattern_code secret guess = some code) ∧
    (∀ secret guess : Word, word_len < guess.length →
      pattern_code secret guess = none) :=
  ⟨fun s g hg => pattern_code_isSome_of_le s g hg,
   fun s g hg => pattern_code_none_of_gt s g hg⟩

/-- Witness for C9's amended theorem, at a short and at a long guess. -/
theorem C9_witness :
    (∃ code, pattern_code ("speed".toList) ("spee".toList) = some code) ∧
    pattern_code ("speed".toList) ("abcdef".toList) = none :=
  ⟨C9_no_length_validation.1 ("speed".toList) ("spee".toList) (by decide),
   C9_no_length_validation.2 ("speed".toList) ("abcdef".toList) (by decide)⟩

/-! ### Claim C8 -/

/-- C8 counterexample: constructing the solver from the empty word list does
not fail — `__init__` has no emptiness check.  It returns an ordinary solver
whose fields are the normally computed values, and a later `best_guess` call
on it fails with the `NoGuessAvailable`-style error (`none`), not with
`EmptyWordList`. -/
theorem C8_counterexample :
    (WordleSolver.init [] 900 1500 (fun _ => none) none).words = [] ∧
    (WordleSolver.init [] 900 1500 (fun _ => none) none).heuristic_ranking
      = [] ∧
    best_guess (WordleSolver.init [] 900 1500 (fun _ => none) none) []
      = none := by
  refine ⟨rfl, ?_, ?_⟩
  · simp [WordleSolver.init, rank_words_by_letter_coverage, sort_desc_by]
  · simp [best_guess, guess_space, WordleSolver.init]

/-- C8 (amended): the empty-word-list rejection lives in `load_words`, which
fails (`ValueError`, modelled by `none`) exactly when no processed line has
length `word_len` — in particular on empty input — while
`WordleSolver.__init__` itself accepts any word list, the empty one included,
without error. -/
theorem C8_empty_rejected_at_load :
    load_words [] = none ∧
    (∀ lines, load_words lines = none ↔
      (lines.map strip_lower).filter (fun w => w.length == word_len) = []) ∧
    ∀ freqs zipf, (WordleSolver.init [] 900 1500 freqs zipf).words = [] := by
  refine ⟨rfl, ?_, fun _ _ => rfl⟩
  intro lines
  simp only [load_words]
  by_cases he :
      (lines.map strip_lower).filter (fun w => w.length == word_len) = []
  · simp [he]
  · simp [he]

/-! ### Claim C4 -/

theorem sum_toFinset_eq_dedup (l : List Nat) (f : Nat → ℝ) :
    ∑ k ∈ l.toFinset, f k = (l.dedup.map f).sum := rfl

theorem list_sum_map_neg (l : List Nat) (t : Nat → ℝ) :
    (l.map (fun k => -(t k))).sum = -((l.map t).sum) := by
  induction l with
  | nil => simp
  | cons a r ih =>
    simp [ih]
    ring

theorem list_sum_eq_zero_nonneg (l : List ℝ) (h : ∀ x ∈ l, 0 ≤ x)
    (hs : l.sum = 0) : ∀ x ∈ l, x = 0 := by
  induction l with
  | nil => simp
  | cons a r ih =>
    have ha : 0 ≤ a := h a (by simp)
    have hr : ∀ x ∈ r, 0 ≤ x := fun x hx => h x (by simp [hx])
    have hrsum : 0 ≤ r.sum := List.sum_nonneg hr
    simp only [List.sum_cons] at hs
    have ha0 : a = 0 := by linarith
    have hr0 : r.sum = 0 := by linarith
    intro x hx
    rcases List.mem_cons.mp hx with rfl | hx'
    · exact ha0
    · exact ih hr hr0 x hx'

theorem count_add_count_le (l : List Nat) (a b : Nat) (hab : a ≠ b) :
    l.count a + l.count b ≤ l.length := by
  induction l with
  | nil => simp
  | cons x r ih =>
    by_cases hxa : a = x
    · have hxb : ¬ b = x := fun h => hab (hxa.trans h.symm)
      subst hxa
      rw [List.count_cons_self, List.count_cons_of_ne hxb]
      simp only [List.length_cons]
      omega
    · rw [List.count_cons_of_ne hxa]
      by_cases hxb : b = x
      · subst hxb
        rw [List.count_cons_self]
        simp only [List.length_cons]
        omega
      · rw [List.count_cons_of_ne hxb]
        simp only [List.length_cons]
        omega

theorem dedup_const (l : List Nat) (k : Nat) (hne : l ≠ [])
    (h : ∀ x ∈ l, x = k) : l.dedup = [k] := by
  induction l with
  | nil => simp at hne
  | cons x r ih =>
    have hx : x = k := h x (by simp)
    by_cases hr : r = []
    · subst hr
      simp [hx]
    · have hdr : r.dedup = [k] := ih hr (fun y hy => h y (by simp [hy]))
      obtain ⟨y, hy⟩ := List.exists_mem_of_ne_nil r hr
      have hmem : x ∈ r := by
        rw [hx, ← h y (List.mem_cons_of_mem x hy)]
        exact hy
      rw [List.dedup_cons_of_mem hmem, hdr]

/-- Every term of the per-bucket entropy sum is nonnegative. -/
theorem entropy_term_nonneg (l : List Nat) (n : Nat) (hn : l.length = n)
    (hpos : 0 < n) :
    ∀ k ∈ l.dedup,
      0 ≤ -(((l.count k : ℝ) / (n : ℝ)) *
        Real.logb 2 ((l.count k : ℝ) / (n : ℝ))) := by
  intro k hk
  have hmem : k ∈ l := List.mem_dedup.mp hk
  have hcpos : 0 < l.count k := List.count_pos_iff.mpr hmem
  have hcle : l.count k ≤ n := hn ▸ List.count_le_length k l
  have htotal : (0 : ℝ) < (n : ℝ) := by exact_mod_cast hpos
  have hp_pos : 0 < ((l.count k : ℝ) / (n : ℝ)) := by
    apply div_pos _ htotal
    exact_mod_cast hcpos
  have hp_le : ((l.count k : ℝ) / (n : ℝ)) ≤ 1 := by
    rw [div_le_one htotal]
    exact_mod_cast hcle
  have hlog : Real.logb 2 ((l.count k : ℝ) / (n : ℝ)) ≤ 0 :=
    Real.logb_nonpos (by norm_num) hp_pos.le hp_le
  have : ((l.count k : ℝ) / (n : ℝ)) *
      Real.logb 2 ((l.count k : ℝ) / (n : ℝ)) ≤ 0 :=
    mul_nonpos_iff.mpr (Or.inl ⟨hp_pos.le, hlog⟩)
  linarith

/-- The per-bucket entropy sum over a code list is nonnegative. -/
theorem entropy_list_nonneg (l : List Nat) (n : Nat) (hn : l.length = n)
    (hpos : 0 < n) :
    0 ≤ (l.dedup.map (fun k =>
      -(((l.count k : ℝ) / (n : ℝ)) *
        Real.logb 2 ((l.count k : ℝ) / (n : ℝ))))).sum := by
  apply List.sum_nonneg
  intro x hx
  rcases List.mem_map.mp hx with ⟨k, hk, rfl⟩
  exact entropy_term_nonneg l n hn hpos k hk

/-- The per-bucket entropy sum vanishes iff the code list is constant. -/
theorem entropy_list_eq_zero_iff (l : List Nat) (n : Nat) (hn : l.length = n)
    (hpos : 0 < n) :
    ((l.dedup.map (fun k =>
      -(((l.count k : ℝ) / (n : ℝ)) *
        Real.logb 2 ((l.count k : ℝ) / (n : ℝ))))).sum = 0 ↔
      ∀ x ∈ l, ∀ y ∈ l, x = y) := by
  have htotal : (0 : ℝ) < (n : ℝ) := by exact_mod_cast hpos
  have hlne : l ≠ [] := by
    intro h
    rw [h] at hn
    simp at hn
    omega
  constructor
  · intro h0 x hx y hy
    by_contra hxy
    have hkx : x ∈ l.dedup := List.mem_dedup.mpr hx
    have hcx : 0 < l.count x := List.count_pos_iff.mpr hx
    have hcy : 0 < l.count y := List.count_pos_iff.mpr hy
    have hsum2 : l.count x + l.count y ≤ n :=
      hn ▸ count_add_count_le l x y hxy
    have hlt : l.count x < n := by omega
    have hterm0 :
        -(((l.count x : ℝ) / (n : ℝ)) *
          Real.logb 2 ((l.count x : ℝ) / (n : ℝ))) = 0 := by
      apply list_sum_eq_zero_nonneg _
        (fun t ht => by
          rcases List.mem_map.mp ht with ⟨k, hk, rfl⟩
          exact entropy_term_nonneg l n hn hpos k hk)
        h0
      exact List.mem_map.mpr ⟨x, hkx, rfl⟩
    have hp_pos : 0 < ((l.count x : ℝ) / (n : ℝ)) := by
      apply div_pos _ htotal
      exact_mod_cast hcx
    have hp_lt1 : ((l.count x : ℝ) / (n : ℝ)) < 1 := by
      rw [div_lt_one htotal]
      exact_mod_cast hlt
    have hlogneg : Real.logb 2 ((l.count x : ℝ) / (n : ℝ)) < 0 :=
      Real.logb_neg (by norm_num) hp_pos hp_lt1
    nlinarith
  · intro hsame
    obtain ⟨x0, hx0⟩ := List.exists_mem_of_ne_nil l hlne
    have hall : ∀ x ∈ l, x = x0 := fun x hx => hsame x hx x0 hx0
    have hdedup : l.dedup = [x0] := dedup_const l x0 hlne hall
    have hcount : l.count x0 = l.length :=
      List.count_eq_length.mpr (fun b hb => (hall b hb).symm)
    rw [hdedup, List.map_cons, List.map_nil, List.sum_cons, List.sum_nil,
      hcount, hn, div_self (ne_of_gt htotal), Real.logb_one]
    ring

/-- C4: `expected_information` equals the Shannon entropy
`H = -Σ p_k log2 p_k` of the feedback-code distribution the candidates
produce against the guess (`entropy_spec`); it is always nonnegative, and is
zero iff every candidate produces the same feedback code against the
guess. -/
theorem C4_expected_information (g : Word) (c : List Word) (hne : c ≠ [])
    (hg : g.length = word_len) (hc : ∀ w ∈ c, w.length = word_len) :
    expected_information g c = entropy_spec g c ∧
    0 ≤ expected_information g c ∧
    (expected_information g c = 0 ↔
      ∀ w1 ∈ c, ∀ w2 ∈ c, pattern_code w1 g = pattern_code w2 g) := by
  have hpos : 0 < c.length := List.length_pos.mpr hne
  have hlen : (c.map (fun answer => pattern_codeD answer g)).length =
      c.length := by simp
  have hkey : ∀ w ∈ c, pattern_code w g = some (pattern_codeD w g) :=
    fun w hw => pattern_code_eq_someD w g (hc w hw) hg
  refine ⟨?_, ?_, ?_⟩
  · simp only [expected_information, entropy_spec,
      sum_toFinset_eq_dedup, list_sum_map_neg]
  · simp only [expected_information]
    exact entropy_list_nonneg _ _ hlen hpos
  · simp only [expected_information]
    rw [entropy_list_eq_zero_iff _ _ hlen hpos]
    constructor
    · intro h w1 hw1 w2 hw2
      rw [hkey w1 hw1, hkey w2 hw2]
      exact congrArg some
        (h _ (List.mem_map.mpr ⟨w1, hw1, rfl⟩)
          _ (List.mem_map.mpr ⟨w2, hw2, rfl⟩))
    · intro h x hx y hy
      rcases List.mem_map.mp hx with ⟨w1, hw1, rfl⟩
      rcases List.mem_map.mp hy with ⟨w2, hw2, rfl⟩
      have := h w1 hw1 w2 hw2
      rw [hkey w1 hw1, hkey w2 hw2] at this
      exact Option.some.inj this

/-- Witness for C4 at guess = "crane", candidates = ["crane", "slate"]. -/
theorem C4_witness :
    expected_information ("crane".toList)
        ["crane".toList, "slate".toList] =
      entropy_spec ("crane".toList) ["crane".toList, "slate".toList] ∧
    0 ≤ expected_information ("crane".toList)
        ["crane".toList, "slate".toList] ∧
    (expected_information ("crane".toList)
        ["crane".toList, "slate".toList] = 0 ↔
      ∀ w1 ∈ (["crane".toList, "slate".toList] : List Word),
        ∀ w2 ∈ (["crane".toList, "slate".toList] : List Word),
          pattern_code w1 ("crane".toList) = pattern_code w2 ("crane".toList)) :=
  C4_expected_information ("crane".toList) ["crane".toList, "slate".toList]
    (by decide) (by decide) (by decide)

/-! ### Claim C5 -/

/-- The fill loop appends to its initial pool a duplicate-free, in-order
selection from the ranking of words not already present. -/
theorem fill_pool_spec (maxEval : Nat) (rank : List Word) :
    ∀ subset, ∃ extra, fill_pool maxEval subset rank = subset ++ extra ∧
      extra.Sublist rank ∧ (∀ w ∈ extra, w ∉ subset) ∧ extra.Nodup := by
  induction rank with
  | nil =>
    intro subset
    exact ⟨[], by simp [fill_pool], List.nil_sublist _, by simp,
      List.nodup_nil⟩
  | cons w rest ih =>
    intro subset
    by_cases hfull : maxEval ≤ subset.length
    · exact ⟨[], by simp [fill_pool, hfull], List.nil_sublist _, by simp,
        List.nodup_nil⟩
    · by_cases hmem : w ∈ subset
      · obtain ⟨extra, he, hsub, hnotin, hnd⟩ := ih subset
        exact ⟨extra, by simp [fill_pool, hfull, hmem, he],
          hsub.cons w, hnotin, hnd⟩
      · obtain ⟨extra, he, hsub, hnotin, hnd⟩ := ih (subset ++ [w])
        refine ⟨w :: extra, ?_, hsub.cons₂ w, ?_, ?_⟩
        · rw [show fill_pool maxEval subset (w :: rest) =
            fill_pool maxEval (subset ++ [w]) rest from by
              simp [fill_pool, hfull, hmem], he]
          simp
        · intro x hx
          rcases List.mem_cons.mp hx with rfl | hx'
          · exact hmem
          · intro hxs
            exact hnotin x hx' (by simp [hxs])
        · refine List.Nodup.cons ?_ hnd
          intro hwin
          exact hnotin w hwin (by simp)

/-- The fill loop never grows the pool beyond `maxEval`. -/
theorem fill_pool_length_le (maxEval : Nat) (rank : List Word) :
    ∀ subset : List Word, subset.length ≤ maxEval →
      (fill_pool maxEval subset rank).length ≤ maxEval := by
  induction rank with
  | nil =>
    intro subset h
    simpa [fill_pool] using h
  | cons w rest ih =>
    intro subset h
    by_cases hfull : maxEval ≤ subset.length
    · simpa [fill_pool, hfull] using h
    · by_cases hmem : w ∈ subset
      · rw [show fill_pool maxEval subset (w :: rest) =
          fill_pool maxEval subset rest from by simp [fill_pool, hfull, hmem]]
        exact ih subset h
      · rw [show fill_pool maxEval subset (w :: rest) =
          fill_pool maxEval (subset ++ [w]) rest from by
            simp [fill_pool, hfull, hmem]]
        apply ih
        simp only [List.length_append, List.length_cons, List.length_nil]
        omega

/-- Exact characterization of the fill loop: it appends the
first-occurrence deduplication of the ranking words not already in the pool,
truncated to the number of remaining slots. -/
theorem fill_pool_eq (maxEval : Nat) :
    ∀ (rank subset : List Word), subset.length ≤ maxEval →
      fill_pool maxEval subset rank =
        subset ++
          (dedup_first (rank.filter (fun w => decide (w ∉ subset)))).take
            (maxEval - subset.length) := by
  intro rank
  induction rank with
  | nil =>
    intro subset h
    simp [fill_pool, dedup_first]
  | cons w rest ih =>
    intro subset h
    by_cases hfull : maxEval ≤ subset.length
    · have hlen : subset.length = maxEval := le_antisymm h hfull
      rw [show fill_pool maxEval subset (w :: rest) = subset from by
        simp [fill_pool, hfull]]
      rw [hlen, Nat.sub_self]
      simp
    · by_cases hmem : w ∈ subset
      · rw [show fill_pool maxEval subset (w :: rest) =
            fill_pool maxEval subset rest from by
              simp [fill_pool, hfull, hmem]]
        rw [ih subset h]
        rw [show (w :: rest).filter (fun v => decide (v ∉ subset)) =
            rest.filter (fun v => decide (v ∉ subset)) from by
              simp [List.filter_cons, hmem]]
      · rw [show fill_pool maxEval subset (w :: rest) =
            fill_pool maxEval (subset ++ [w]) rest from by
              simp [fill_pool, hfull, hmem]]
        have hlen1 : (subset ++ [w]).length ≤ maxEval := by
          simp only [List.length_append, List.length_cons, List.length_nil]
          omega
        rw [ih (subset ++ [w]) hlen1]
        rw [show (w :: rest).filter (fun v => decide (v ∉ subset)) =
            w :: rest.filter (fun v => decide (v ∉ subset)) from by
              simp [List.filter_cons, hmem]]
        rw [show dedup_first (w :: rest.filter (fun v => decide (v ∉ subset)))
            = w :: dedup_first
              ((rest.filter (fun v => decide (v ∉ subset))).filter
                (fun v => decide (v ≠ w))) from by rw [dedup_first]]
        have hff : (rest.filter (fun v => decide (v ∉ subset))).filter
            (fun v => decide (v ≠ w)) =
            rest.filter (fun v => decide (v ∉ subset ++ [w])) := by
          rw [List.filter_filter]
          apply List.filter_congr
          intro v _
          by_cases h1 : v ∈ subset
          · simp [h1]
          · by_cases h2 : v = w
            · simp [h1, h2]
            · simp [h1, h2]
        rw [hff]
        rw [show maxEval - subset.length =
            (maxEval - (subset ++ [w]).length) + 1 from by
              simp only [List.length_append, List.length_cons,
                List.length_nil]
              omega]
        rw [List.take_succ_cons]
        simp

/-- The fill loop stops only once the pool is full or the ranking is
exhausted: either the result reaches `maxEval` words, or every ranking word
ends up in the result. -/
theorem fill_pool_full_or_exhausts (maxEval : Nat) :
    ∀ (rank subset : List Word), subset.length ≤ maxEval →
      (fill_pool maxEval subset rank).length = maxEval ∨
        ∀ w ∈ rank, w ∈ fill_pool maxEval subset rank := by
  intro rank
  induction rank with
  | nil =>
    intro subset h
    right
    simp
  | cons w rest ih =>
    intro subset h
    by_cases hfull : maxEval ≤ subset.length
    · left
      rw [show fill_pool maxEval subset (w :: rest) = subset from by
        simp [fill_pool, hfull]]
      omega
    · by_cases hmem : w ∈ subset
      · have hstep : fill_pool maxEval subset (w :: rest) =
            fill_pool maxEval subset rest := by
          simp [fill_pool, hfull, hmem]
        rcases ih subset h with hl | hr
        · left
          rw [hstep]
          exact hl
        · right
          intro v hv
          rw [hstep]
          rcases List.mem_cons.mp hv with rfl | hv'
          · obtain ⟨extra, he, -, -, -⟩ := fill_pool_spec maxEval rest subset
            rw [he]
            exact List.mem_append.mpr (Or.inl hmem)
          · exact hr v hv'
      · have hstep : fill_pool maxEval subset (w :: rest) =
            fill_pool maxEval (subset ++ [w]) rest := by
          simp [fill_pool, hfull, hmem]
        have hlen1 : (subset ++ [w]).length ≤ maxEval := by
          simp only [List.length_append, List.length_cons, List.length_nil]
          omega
        rcases ih (subset ++ [w]) hlen1 with hl | hr
        · left
          rw [hstep]
          exact hl
        · right
          intro v hv
          rw [hstep]
          rcases List.mem_cons.mp hv with hv0 | hv'
          · obtain ⟨extra, he, -, -, -⟩ :=
              fill_pool_spec maxEval rest (subset ++ [w])
            rw [he]
            exact List.mem_append.mpr (Or.inl (by simp [hv0]))
          · exact hr v hv'

/-- The stable descending sort is sorted for the descending relation. -/
theorem sort_desc_sorted (score : Word → Nat) (l : List Word) :
    (sort_desc_by score l).Pairwise (fun a b => score b ≤ score a) := by
  haveI : IsTotal Word (fun a b => score b ≤ score a) :=
    ⟨fun a b => Nat.le_total (score b) (score a)⟩
  haveI : IsTrans Word (fun a b => score b ≤ score a) :=
    ⟨fun _ _ _ h1 h2 => le_trans h2 h1⟩
  exact List.sorted_insertionSort _ l

/-- C5: when the candidate pool is within `full_eval_limit` the scoring pool
is the entire word list; otherwise it has at most `max_eval_guesses` words
and consists of the top `max_eval_guesses / 2` candidates under the
candidate-local descending letter-coverage ranking, followed by the fill
from the precomputed heuristic ranking of the full word list: exactly the
first-occurrence selection, in ranking order, of the ranking words not
already in the pool, truncated to the remaining slots (so the pool reaches
`max_eval_guesses` words unless the ranking is exhausted first). -/
theorem C5_guess_space (S : WordleSolver) (c : List Word)
    (hM : S.max_eval_guesses = 900) (hF : S.full_eval_limit = 1500)
    (hR : S.heuristic_ranking = rank_words_by_letter_coverage S.words) :
    (c.length ≤ S.full_eval_limit → guess_space S c = S.words) ∧
    (S.full_eval_limit < c.length →
      (guess_space S c).length ≤ S.max_eval_guesses ∧
      (sort_desc_by (coverage_score (letter_counts c)) c).Perm c ∧
      (sort_desc_by (coverage_score (letter_counts c)) c).Pairwise
        (fun a b => coverage_score (letter_counts c) b ≤
          coverage_score (letter_counts c) a) ∧
      ((guess_space S c).length = S.max_eval_guesses ∨
        ∀ w ∈ rank_words_by_letter_coverage S.words, w ∈ guess_space S c) ∧
      guess_space S c =
        (sort_desc_by (coverage_score (letter_counts c)) c).take
            (S.max_eval_guesses / 2) ++
          (dedup_first ((rank_words_by_letter_coverage S.words).filter
            (fun w => decide (w ∉
              (sort_desc_by (coverage_score (letter_counts c)) c).take
                (S.max_eval_guesses / 2))))).take
            (S.max_eval_guesses -
              ((sort_desc_by (coverage_score (letter_counts c)) c).take
                (S.max_eval_guesses / 2)).length) ∧
      ∃ extra,
        guess_space S c =
          (sort_desc_by (coverage_score (letter_counts c)) c).take
            (S.max_eval_guesses / 2) ++ extra ∧
        extra.Sublist (rank_words_by_letter_coverage S.words) ∧
        (∀ w ∈ extra,
          w ∉ (sort_desc_by (coverage_score (letter_counts c)) c).take
            (S.max_eval_guesses / 2)) ∧
        extra.Nodup) := by
  refine ⟨fun h => by simp [guess_space, h], fun h => ?_⟩
  have hnotle : ¬ c.length ≤ S.full_eval_limit := not_le.mpr h
  have hcap : ¬ c.length ≤ S.max_eval_guesses / 2 := by
    rw [hM]
    rw [hF] at h
    omega
  have htop : top_candidate_words c (S.max_eval_guesses / 2) =
      (sort_desc_by (coverage_score (letter_counts c)) c).take
        (S.max_eval_guesses / 2) := by
    rw [top_candidate_words, if_neg hcap]
  have hg : guess_space S c = fill_pool S.max_eval_guesses
      (top_candidate_words c (S.max_eval_guesses / 2))
      S.heuristic_ranking := by
    rw [guess_space, if_neg hnotle]
  have hpre_le : (top_candidate_words c (S.max_eval_guesses / 2)).length ≤
      S.max_eval_guesses := by
    rw [htop]
    calc ((sort_desc_by (coverage_score (letter_counts c)) c).take
        (S.max_eval_guesses / 2)).length
        ≤ S.max_eval_guesses / 2 := List.length_take_le _ _
      _ ≤ S.max_eval_guesses := Nat.div_le_self _ _
  obtain ⟨extra, he, hsub, hnotin, hnd⟩ := fill_pool_spec
    S.max_eval_guesses S.heuristic_ranking
    (top_candidate_words c (S.max_eval_guesses / 2))
  refine ⟨?_, List.perm_insertionSort _ c, sort_desc_sorted _ c, ?_, ?_,
    extra, ?_, ?_, ?_, hnd⟩
  · rw [hg]
    exact fill_pool_length_le _ _ _ hpre_le
  · rcases fill_pool_full_or_exhausts S.max_eval_guesses S.heuristic_ranking
      (top_candidate_words c (S.max_eval_guesses / 2)) hpre_le with hl | hr2
    · left
      rw [hg]
      exact hl
    · right
      intro w hw
      rw [hg]
      exact hr2 w (by rw [hR]; exact hw)
  · rw [hg, fill_pool_eq S.max_eval_guesses S.heuristic_ranking
      (top_candidate_words c (S.max_eval_guesses / 2)) hpre_le, htop, hR]
  · rw [hg, he, htop]
  · rw [← hR]
    exact hsub
  · intro w hw
    have := hnotin w hw
    rwa [htop] at this

/-- Witness for C5, at a small and at a large candidate pool. -/
theorem C5_witness :
    (guess_space
        { words := ["crane".toList], max_eval_guesses := 900,
          full_eval_limit := 1500, heuristic_ranking := ["crane".toList],
          freqs := fun _ => 0 } [] = (["crane".toList] : List Word)) ∧
    ((guess_space
        { words := ["crane".toList], max_eval_guesses := 900,
          full_eval_limit := 1500, heuristic_ranking := ["crane".toList],
          freqs := fun _ => 0 }
        (List.replicate 1501 ("crane".toList))).length ≤ 900) ∧
    ((guess_space
        { words := ["crane".toList], max_eval_guesses := 900,
          full_eval_limit := 1500, heuristic_ranking := ["crane".toList],
          freqs := fun _ => 0 }
        (List.replicate 1501 ("crane".toList))).length = 900 ∨
      ∀ w ∈ rank_words_by_letter_coverage ["crane".toList],
        w ∈ guess_space
          { words := ["crane".toList], max_eval_guesses := 900,
            full_eval_limit := 1500, heuristic_ranking := ["crane".toList],
            freqs := fun _ => 0 }
          (List.replicate 1501 ("crane".toList))) :=
  ⟨(C5_guess_space _ [] rfl rfl (by decide)).1 (by simp),
   ((C5_guess_space _ (List.replicate 1501 ("crane".toList)) rfl rfl
      (by decide)).2 (by
        show (1500 : Nat) < (List.replicate 1501 ("crane".toList)).length
        rw [List.length_replicate]
        omega)).1,
   ((C5_guess_space _ (List.replicate 1501 ("crane".toList)) rfl rfl
      (by decide)).2 (by
        show (1500 : Nat) < (List.replicate 1501 ("crane".toList)).length
        rw [List.length_replicate]
        omega)).2.2.2.1⟩

/-! ### Claims C3 and C10 -/

theorem keyGT_irrefl (a : ℝ × Bool × ℝ) : ¬ keyGT a a := by
  rintro (h | ⟨-, (⟨h1, h2⟩ | ⟨-, h⟩)⟩)
  · exact lt_irrefl _ h
  · rw [h1] at h2
    exact Bool.false_ne_true h2
  · exact lt_irrefl _ h

theorem keyGT_trans : ∀ a b c : ℝ × Bool × ℝ,
    keyGT a b → keyGT b c → keyGT a c := by
  rintro ⟨a1, a2, a3⟩ ⟨b1, b2, b3⟩ ⟨c1, c2, c3⟩ h1 h2
  simp only [keyGT] at h1 h2 ⊢
  rcases h1 with h1 | ⟨e1, h1⟩
  · rcases h2 with h2 | ⟨e2, h2⟩
    · exact Or.inl (by linarith)
    · exact Or.inl (by rw [← e2]; exact h1)
  · rcases h2 with h2 | ⟨e2, h2⟩
    · exact Or.inl (by rw [e1]; exact h2)
    · refine Or.inr ⟨e1.trans e2, ?_⟩
      rcases h1 with ⟨hb, ha⟩ | ⟨e12, h3⟩
      · rcases h2 with ⟨hc, hb'⟩ | ⟨e23, h4⟩
        · rw [hb] at hb'
          exact absurd hb' (by simp)
        · exact Or.inl ⟨by rw [← e23]; exact hb, ha⟩
      · rcases h2 with ⟨hc, hb'⟩ | ⟨e23, h4⟩
        · exact Or.inl ⟨hc, e12.trans hb'⟩
        · exact Or.inr ⟨e12.trans e23, by linarith⟩

theorem best_step_isSome (S : WordleSolver) (c : List Word)
    (acc : Option (Word × (ℝ × Bool × ℝ))) (w : Word) :
    ∃ p, best_step S c acc w = some p := by
  match acc with
  | none => exact ⟨_, rfl⟩
  | some (bw, bk) =>
    simp only [best_step]
    by_cases h : keyGT (guess_key S c w) bk
    · rw [if_pos h]
      exact ⟨_, rfl⟩
    · rw [if_neg h]
      exact ⟨_, rfl⟩

/-- The word just processed never beats the accumulator the step returns. -/
theorem best_step_not_beaten (S : WordleSolver) (c : List Word)
    (acc : Option (Word × (ℝ × Bool × ℝ))) (w : Word) :
    ∀ w' k', best_step S c acc w = some (w', k') →
      ¬ keyGT (guess_key S c w) k' := by
  intro w' k' hstep
  match acc with
  | none =>
    simp only [best_step, Option.some.injEq, Prod.mk.injEq] at hstep
    rw [← hstep.2]
    exact keyGT_irrefl _
  | some (bw, bk) =>
    simp only [best_step] at hstep
    by_cases h : keyGT (guess_key S c w) bk
    · rw [if_pos h] at hstep
      simp only [Option.some.injEq, Prod.mk.injEq] at hstep
      rw [← hstep.2]
      exact keyGT_irrefl _
    · rw [if_neg h] at hstep
      simp only [Option.some.injEq, Prod.mk.injEq] at hstep
      rw [← hstep.2]
      exact h

/-- The step never decreases the accumulator key. -/
theorem best_step_dominates (S : WordleSolver) (c : List Word)
    (w0 : Word) (k0 : ℝ × Bool × ℝ) (w : Word) :
    ∀ w' k', best_step S c (some (w0, k0)) w = some (w', k') →
      k' = k0 ∨ keyGT k' k0 := by
  intro w' k' hstep
  simp only [best_step] at hstep
  by_cases h : keyGT (guess_key S c w) k0
  · rw [if_pos h] at hstep
    simp only [Option.some.injEq, Prod.mk.injEq] at hstep
    exact Or.inr (hstep.2 ▸ h)
  · rw [if_neg h] at hstep
    simp only [Option.some.injEq, Prod.mk.injEq] at hstep
    exact Or.inl hstep.2.symm

/-- Full invariant of the `best_guess` selection fold. -/
theorem best_foldl_spec (S : WordleSolver) (c : List Word) :
    ∀ (pool : List Word) (acc : Option (Word × (ℝ × Bool × ℝ))),
      (pool.foldl (best_step S c) acc = none ↔ (acc = none ∧ pool = [])) ∧
      (∀ w k, pool.foldl (best_step S c) acc = some (w, k) →
        (acc = some (w, k) ∨ (w ∈ pool ∧ k = guess_key S c w)) ∧
        (∀ g ∈ pool, ¬ keyGT (guess_key S c g) k) ∧
        (∀ w0 k0, acc = some (w0, k0) → (k = k0 ∨ keyGT k k0))) := by
  intro pool
  induction pool with
  | nil =>
    intro acc
    refine ⟨by simp, ?_⟩
    intro w k hres
    simp only [List.foldl_nil] at hres
    exact ⟨Or.inl hres, by simp,
      fun w0 k0 h0 => by
        rw [h0] at hres
        have h2 := Option.some.inj hres
        rw [Prod.mk.injEq] at h2
        exact Or.inl h2.2.symm⟩
  | cons v rest ih =>
    intro acc
    obtain ⟨p, hp⟩ := best_step_isSome S c acc v
    obtain ⟨v', k'⟩ := p
    have hfold : (v :: rest).foldl (best_step S c) acc =
        rest.foldl (best_step S c) (some (v', k')) := by
      simp [List.foldl_cons, hp]
    constructor
    · rw [hfold, ((ih (some (v', k'))).1)]
      simp
    · intro w k hres
      rw [hfold] at hres
      obtain ⟨hsrc, hmax, hdom⟩ := (ih (some (v', k'))).2 w k hres
      have hkk' : k = k' ∨ keyGT k k' := hdom v' k' rfl
      have hvnot : ¬ keyGT (guess_key S c v) k := by
        have hv' : ¬ keyGT (guess_key S c v) k' :=
          best_step_not_beaten S c acc v v' k' hp
        rcases hkk' with rfl | hgt
        · exact hv'
        · intro hcon
          exact hv' (keyGT_trans _ _ _ hcon hgt)
      refine ⟨?_, ?_, ?_⟩
      · -- provenance of (w, k)
        rcases hsrc with heq | ⟨hmem, hkey⟩
        · -- (w, k) = (v', k'), which the step produced
          have hw : v' = w ∧ k' = k := by
            have h2 := Option.some.inj heq
            rw [Prod.mk.injEq] at h2
            exact h2
          match acc with
          | none =>
            simp only [best_step, Option.some.injEq, Prod.mk.injEq] at hp
            refine Or.inr ⟨?_, ?_⟩
            · rw [← hw.1, ← hp.1]
              simp
            · rw [← hw.2, ← hp.2, hp.1, hw.1]
          | some (bw, bk) =>
            simp only [best_step] at hp
            by_cases hbeat : keyGT (guess_key S c v) bk
            · rw [if_pos hbeat] at hp
              simp only [Option.some.injEq, Prod.mk.injEq] at hp
              refine Or.inr ⟨?_, ?_⟩
              · rw [← hw.1, ← hp.1]
                simp
              · rw [← hw.2, ← hp.2, hp.1, hw.1]
            · rw [if_neg hbeat] at hp
              rw [← hp] at heq
              exact Or.inl heq
        · exact Or.inr ⟨by simp [hmem], hkey⟩
      · intro g hg
        rcases List.mem_cons.mp hg with rfl | hg'
        · exact hvnot
        · exact hmax g hg'
      · intro w0 k0 h0
        have hstep0 : k' = k0 ∨ keyGT k' k0 := by
          rw [h0] at hp
          exact best_step_dominates S c w0 k0 v v' k' hp
        rcases hkk' with rfl | hgt
        · exact hstep0
        · rcases hstep0 with rfl | hgt2
          · exact Or.inr hgt
          · exact Or.inr (keyGT_trans _ _ _ hgt hgt2)

/-- C3: `best_guess` fails iff the scoring pool is empty; otherwise it
returns a pooled word together with its entropy against the full candidate
list, no pooled word beats the chosen one's key tuple
`(entropy, membership in candidates, frequency)`, and among entropy ties a
pooled word inside `candidates` forces the chosen word to be inside
`candidates` as well. -/
theorem C3_best_guess (S : WordleSolver) (c : List Word) :
    (best_guess S c = none ↔ guess_space S c = []) ∧
    (∀ w e, best_guess S c = some (w, e) →
      w ∈ guess_space S c ∧
      e = expected_information w c ∧
      (∀ g ∈ guess_space S c,
        ¬ keyGT (guess_key S c g) (guess_key S c w)) ∧
      (∀ g ∈ guess_space S c,
        expected_information g c = expected_information w c →
        g ∈ c → w ∈ c)) := by
  obtain ⟨hnone, hsome⟩ := best_foldl_spec S c (guess_space S c) none
  constructor
  · rw [best_guess, Option.map_eq_none']
    rw [hnone]
    simp
  · intro w e hbg
    rw [best_guess] at hbg
    rcases Option.map_eq_some'.mp hbg with ⟨p, hfold, hpr⟩
    obtain ⟨w1, k⟩ := p
    have hpr2 : w1 = w ∧ k.1 = e := by
      simpa only [Prod.mk.injEq] using hpr
    obtain ⟨rfl, he⟩ := hpr2
    obtain ⟨hsrc, hmax, -⟩ := hsome w1 k hfold
    rcases hsrc with h | ⟨hmem, hkey⟩
    · exact absurd h (by simp)
    · subst hkey
      refine ⟨hmem, by rw [← he]; simp [guess_key], hmax, ?_⟩
      intro g hg hE hgc
      by_contra hwc
      apply hmax g hg
      have hcw : c.contains w1 = false := by
        rcases hb : c.contains w1 with _ | _
        · rfl
        · exact absurd (List.elem_iff.mp hb) hwc
      have hcg : c.contains g = true := List.elem_iff.mpr hgc
      exact Or.inr ⟨hE, Or.inl ⟨hcw, hcg⟩⟩

/-- Witness for C3 at a one-word solver and empty candidates. -/
theorem C3_witness :
    (best_guess
        { words := ["crane".toList], max_eval_guesses := 900,
          full_eval_limit := 1500, heuristic_ranking := ["crane".toList],
          freqs := fun _ => 0 } [] = none ↔
      guess_space
        { words := ["crane".toList], max_eval_guesses := 900,
          full_eval_limit := 1500, heuristic_ranking := ["crane".toList],
          freqs := fun _ => 0 } [] = []) ∧
    ("crane".toList ∈ guess_space
        { words := ["crane".toList], max_eval_guesses := 900,
          full_eval_limit := 1500, heuristic_ranking := ["crane".toList],
          freqs := fun _ => 0 } [] ∧
      expected_information ("crane".toList) [] =
        expected_information ("crane".toList) [] ∧
      (∀ g ∈ guess_space
          { words := ["crane".toList], max_eval_guesses := 900,
            full_eval_limit := 1500, heuristic_ranking := ["crane".toList],
            freqs := fun _ => 0 } [],
        ¬ keyGT
          (guess_key
            { words := ["crane".toList], max_eval_guesses := 900,
              full_eval_limit := 1500, heuristic_ranking := ["crane".toList],
              freqs := fun _ => 0 } [] g)
          (guess_key
            { words := ["crane".toList], max_eval_guesses := 900,
              full_eval_limit := 1500, heuristic_ranking := ["crane".toList],
              freqs := fun _ => 0 } [] ("crane".toList))) ∧
      (∀ g ∈ guess_space
          { words := ["crane".toList], max_eval_guesses := 900,
            full_eval_limit := 1500, heuristic_ranking := ["crane".toList],
            freqs := fun _ => 0 } [],
        expected_information g [] =
          expected_information ("crane".toList) [] →
        g ∈ ([] : List Word) → "crane".toList ∈ ([] : List Word))) :=
  ⟨(C3_best_guess _ []).1,
   (C3_best_guess _ []).2 ("crane".toList)
     (expected_information ("crane".toList) []) rfl⟩

/-- C10: for a solver with a non-empty word list, calling `best_guess` with
an empty candidate list does not fail: `expected_information` over an empty
candidate list is `0` for every guess (the per-bucket division is never
evaluated), and `best_guess` returns some word of the full word list paired
with score `0`. -/
theorem C10_empty_candidates (S : WordleSolver) (hne : S.words ≠ []) :
    (∀ g : Word, expected_information g [] = 0) ∧
    ∃ w, w ∈ S.words ∧ best_guess S [] = some (w, 0) := by
  have hzero : ∀ g : Word, expected_information g [] = 0 := by
    intro g
    simp [expected_information]
  refine ⟨hzero, ?_⟩
  have hpool : guess_space S [] = S.words := by
    simp [guess_space]
  obtain ⟨hnone, hsome⟩ := best_foldl_spec S [] (guess_space S []) none
  rcases hfold : (guess_space S []).foldl (best_step S []) none with _ | p
  · rw [hnone] at hfold
    rw [hpool] at hfold
    exact absurd hfold.2 hne
  · obtain ⟨w, k⟩ := p
    obtain ⟨hsrc, -, -⟩ := hsome w k hfold
    rcases hsrc with h | ⟨hmem, hkey⟩
    · exact absurd h (by simp)
    · refine ⟨w, hpool ▸ hmem, ?_⟩
      rw [best_guess, hfold]
      subst hkey
      simp [guess_key, hzero w]

/-- Witness for C10 at a one-word solver. -/
theorem C10_witness :
    (∀ g : Word, expected_information g [] = 0) ∧
    ∃ w, w ∈ (WordleSolver.mk ["crane".toList] 900 1500 ["crane".toList]
        (fun _ => 0)).words ∧
      best_guess (WordleSolver.mk ["crane".toList] 900 1500 ["crane".toList]
        (fun _ => 0)) [] = some (w, 0) :=
  C10_empty_candidates _ (by simp)

end Wordle
